import Mathlib

/-!
Verification of the hunk-dependency tracker of `gitbutler`
(`src/crates/gitbutler-hunk-dependency/src/path.rs`).

The file embeds the data model and the operations `PathRanges::add`,
`add_new`, `add_existing` and `PathRanges::intersection` of `path.rs`.
The types `InputDiff` and `HunkRange` together with the helper methods
`net_lines`, `contains`, `covered_by` and `intersects` are declared in a
crate module that is not part of the sources; they are modelled from the
specification (`spec.md`), as marked in their doc comments.

Machine integers are embedded as `Nat` (the `u32` line counters) and
`Int` (the signed `i32` net line counts); `u32` subtraction appears in
the source only at places guarded to be non-negative, and is embedded as
truncated `Nat` subtraction.  `git2::Oid` and `StackId` are opaque
identifiers, embedded as `Nat`.  The `HashSet<git2::Oid>` is embedded as
`Finset Nat`.  `anyhow::Result` is embedded as `Except AddErr`.
-/

namespace GitButler

/-- Modelled from the spec: error kinds of §7.  `DuplicateCommit` is the
`bail!` of `PathRanges::add`; `InvalidDiff` is the failure of
`InputDiff::net_lines` (the error type itself lives outside `src/`). -/
inductive AddErr where
  | duplicateCommit
  | invalidDiff
deriving DecidableEq

instance {ε α : Type} [DecidableEq ε] [DecidableEq α] : DecidableEq (Except ε α) :=
  fun x y =>
    match x, y with
    | .ok a, .ok b => if h : a = b then isTrue (by rw [h]) else isFalse (by simp [h])
    | .error a, .error b => if h : a = b then isTrue (by rw [h]) else isFalse (by simp [h])
    | .ok _, .error _ => isFalse (by simp)
    | .error _, .ok _ => isFalse (by simp)

/-- Modelled from the spec: `InputDiff` (§3, §6) is defined in the crate
module `input.rs`, which is not under `src/`.  Four non-negative line
counters of a single unified-diff hunk. -/
structure InputDiff where
  old_start : Nat
  old_lines : Nat
  new_start : Nat
  new_lines : Nat
deriving DecidableEq

/-- Modelled from the spec: `net_lines()` (§3, §6, §7) returns the signed
difference `new_lines − old_lines` and fails with `InvalidDiff` when the
result would overflow the signed 32-bit result type. -/
def InputDiff.netLines (d : InputDiff) : Except AddErr Int :=
  let n : Int := (d.new_lines : Int) - (d.old_lines : Int)
  if -(2 ^ 31) ≤ n ∧ n < 2 ^ 31 then .ok n else .error .invalidDiff

/-- `true` iff `netLines` succeeds. -/
def InputDiff.netOk (d : InputDiff) : Bool :=
  match d.netLines with
  | .ok _ => true
  | .error _ => false

/-- Modelled from the spec: `HunkRange` (§3) is defined in the crate
module `hunk.rs`, which is not under `src/`.  An attributed interval in
the post-image coordinate space. -/
structure HunkRange where
  stack_id : Nat
  commit_id : Nat
  start : Nat
  lines : Nat
  line_shift : Int
deriving DecidableEq

/-- Modelled from the spec: `HunkRange::contains` (§4.1.1).  The spec's
formula there reads `p.start ≤ s`, but the spec's own tie-break rule
(§9: when `old_start` equals the previous range's `start` the incoming
diff *overwrites or truncates* the previous range rather than splitting
it) and the repository test `stack_delete_file`
(`src/crates/gitbutler-hunk-dependency/src/path.rs`) both require the
strict form `p.start < s`; we model the strict form. -/
def HunkRange.contains (p : HunkRange) (s l : Nat) : Bool :=
  decide (p.start < s ∧ s + l ≤ p.start + p.lines)

/-- Modelled from the spec: `HunkRange::covered_by` (§4.1.1):
`covered_by(s, l) ≡ s ≤ p.start ∧ p.start + p.lines ≤ s + l` — the
receiver's interval is covered by the argument interval. -/
def HunkRange.covered_by (p : HunkRange) (s l : Nat) : Bool :=
  decide (s ≤ p.start ∧ p.start + p.lines ≤ s + l)

/-- Modelled from the spec: `HunkRange::intersects` (§4.2, §9).
Closed-open interval overlap, with the policies of §4.2/§9: a
creation/deletion sentinel (`start + lines == 0`) intersects every query
(required by scenario S2 and the `stack_delete_file` test), any other
zero-length range intersects nothing, and a `lines == 0` query is a
point query matching iff `r.start ≤ start < r.start + r.lines`. -/
def HunkRange.intersects (r : HunkRange) (s l : Nat) : Bool :=
  if r.start + r.lines = 0 then true
  else if r.lines = 0 then false
  else if l = 0 then decide (r.start ≤ s ∧ s < r.start + r.lines)
  else decide (r.start < s + l ∧ s < r.start + r.lines)

/-- Plain closed-open interval overlap `[r.start, r.start+r.lines) ∩
[s, s+l) ≠ ∅`, exactly as the words of claim C7 / spec §4.2 describe it
(no sentinel or point-query policy).  Used to compare `intersects`
against the spec's words. -/
def specOverlap (r : HunkRange) (s l : Nat) : Bool :=
  decide (max r.start s < min (r.start + r.lines) (s + l))

/-- Saturating signed addition on an unsigned counter (`+ₛ` of §4.1.2,
`u32::saturating_add_signed` in the source): negative results saturate
to 0. -/
def satAddSigned (n : Nat) (i : Int) : Nat := ((n : Int) + i).toNat

/-- `add_new` of `path.rs` (lines 81–172): how a diff of the incoming
commit is emitted given the previously emitted range. -/
def addNew (new_diff : InputDiff) (last_hunk : Option HunkRange)
    (stack_id commit_id : Nat) : Except AddErr (List HunkRange) :=
  match last_hunk with
  | none =>
    match new_diff.netLines with
    | .error e => .error e
    | .ok n => .ok [⟨stack_id, commit_id, new_diff.new_start, new_diff.new_lines, n⟩]
  | some p =>
    if p.start + p.lines < new_diff.old_start then
      -- Diffs do not overlap so we return them in order.
      match new_diff.netLines with
      | .error e => .error e
      | .ok n => .ok [p, ⟨stack_id, commit_id, new_diff.new_start, new_diff.new_lines, n⟩]
    else if p.contains new_diff.old_start new_diff.old_lines then
      -- Split the previous range in two and retain the tail.
      match new_diff.netLines with
      | .error e => .error e
      | .ok n =>
        .ok [⟨p.stack_id, p.commit_id, p.start, new_diff.new_start - p.start, 0⟩,
             ⟨stack_id, commit_id, new_diff.new_start, new_diff.new_lines, n⟩,
             ⟨p.stack_id, p.commit_id, new_diff.new_start + new_diff.new_lines,
              p.lines - new_diff.old_lines - (new_diff.old_start - p.start),
              p.line_shift⟩]
    else if p.covered_by new_diff.old_start new_diff.old_lines then
      -- The new diff completely overwrites the previous one.
      match new_diff.netLines with
      | .error e => .error e
      | .ok n => .ok [⟨stack_id, commit_id, new_diff.new_start, new_diff.new_lines, n⟩]
    else
      -- Overwrite the tail of the previous diff.
      match new_diff.netLines with
      | .error e => .error e
      | .ok n =>
        .ok [⟨p.stack_id, p.commit_id, p.start, new_diff.new_start - p.start, p.line_shift⟩,
             ⟨stack_id, commit_id, new_diff.new_start, new_diff.new_lines, n⟩]

/-- `add_existing` of `path.rs` (lines 175–208): how an already stored
range is emitted, shifted into current coordinates. -/
def addExisting (hunk : HunkRange) (last_hunk : Option HunkRange) (shift : Int) :
    List HunkRange :=
  match last_hunk with
  | none => [hunk]
  | some p =>
    if hunk.start + hunk.lines = 0 then
      [hunk]
    else if p.start + p.lines < satAddSigned hunk.start shift then
      [p, { hunk with start := satAddSigned hunk.start shift }]
    else if p.covered_by (satAddSigned hunk.start shift) hunk.lines then
      [p]
    else
      [p, { hunk with start := satAddSigned hunk.start shift,
                      lines := hunk.lines - (p.start + p.lines - hunk.start) }]

/-- Lines 59–61 of `path.rs` as a combinator: the ranges produced by a
loop iteration, minus the held-back last one, are prepended to whatever
the rest of the loop produces; errors and fuel exhaustion pass through. -/
def contWith (pre : List HunkRange) :
    Option (Except AddErr (List HunkRange)) → Option (Except AddErr (List HunkRange))
  | none => none
  | some (.error e) => some (.error e)
  | some (.ok rest) => some (.ok (pre ++ rest))

/-- The two-pointer merge loop of `PathRanges::add` (lines 44–62).  The
two cursors `i`, `j` of the source are embedded as the unconsumed
suffixes `ds`, `hs`; `fuel` bounds the number of iterations, `none`
models fuel exhaustion (never reached with fuel `|ds| + |hs|`, see
`mergeLoop_isSome_of_le`).  Each iteration consumes exactly one element
of `ds` or `hs`, holds back the last produced range in `last`, and emits
the earlier ones. -/
def mergeLoop (stack_id commit_id : Nat) :
    Nat → List InputDiff → List HunkRange → Int → Option HunkRange →
    Option (Except AddErr (List HunkRange))
  | _, [], [], _, last => some (.ok last.toList)
  | 0, _ :: _, _, _, _ => none
  | 0, [], _ :: _, _, _ => none
  | fuel + 1, d :: ds, [], net, last =>
    match d.netLines with
    | .error e => some (.error e)
    | .ok n =>
      match addNew d last stack_id commit_id with
      | .error e => some (.error e)
      | .ok rs =>
        contWith rs.dropLast (mergeLoop stack_id commit_id fuel ds [] (net + n) rs.getLast?)
  | fuel + 1, [], h :: hs, net, last =>
    let rs := addExisting h last net
    contWith rs.dropLast (mergeLoop stack_id commit_id fuel [] hs net rs.getLast?)
  | fuel + 1, d :: ds, h :: hs, net, last =>
    if d.old_start < h.start then
      match d.netLines with
      | .error e => some (.error e)
      | .ok n =>
        match addNew d last stack_id commit_id with
        | .error e => some (.error e)
        | .ok rs =>
          contWith rs.dropLast
            (mergeLoop stack_id commit_id fuel ds (h :: hs) (net + n) rs.getLast?)
    else
      let rs := addExisting h last net
      contWith rs.dropLast (mergeLoop stack_id commit_id fuel (d :: ds) hs net rs.getLast?)

/-- The merge of `PathRanges::add` run to completion: fuel `|ds| + |hs|`
is provably sufficient (`mergeLoop_isSome_of_le`), so the `getD` default
is unreachable. -/
def mergeRun (stack_id commit_id : Nat) (ds : List InputDiff) (hs : List HunkRange) :
    Except AddErr (List HunkRange) :=
  (mergeLoop stack_id commit_id (ds.length + hs.length) ds hs 0 none).getD (.ok hs)

/-- `PathRanges` of `path.rs` (lines 19–23). -/
structure PathRanges where
  hunks : List HunkRange
  commit_ids : Finset Nat
deriving DecidableEq

/-- `PathRanges::default()`. -/
def PathRanges.empty : PathRanges := ⟨[], ∅⟩

/-- `PathRanges::add` of `path.rs` (lines 26–70), embedded as explicit
state passing: the returned state is the receiver after the call, the
`Option AddErr` is the `Result` return channel.  As in the source, the
commit id is inserted into `commit_ids` *before* the diffs are
validated, and `hunks` is replaced only on success. -/
def PathRanges.add (s : PathRanges) (stack_id commit_id : Nat)
    (diffs : List InputDiff) : PathRanges × Option AddErr :=
  if commit_id ∈ s.commit_ids then
    (s, some .duplicateCommit)
  else
    match mergeRun stack_id commit_id diffs s.hunks with
    | .ok out => (⟨out, insert commit_id s.commit_ids⟩, none)
    | .error e => (⟨s.hunks, insert commit_id s.commit_ids⟩, some e)

/-- `PathRanges::intersection` of `path.rs` (lines 72–77). -/
def PathRanges.intersection (s : PathRanges) (start lines : Nat) : List HunkRange :=
  s.hunks.filter (fun h => h.intersects start lines)

/-- A sequence of `add` calls `(stack_id, commit_id, diffs)` executed in
order, returning the final state, the number of calls that returned
success and the number of calls that failed with `InvalidDiff`. -/
def runAdds : PathRanges → List (Nat × Nat × List InputDiff) → PathRanges × Nat × Nat
  | s, [] => (s, 0, 0)
  | s, (sid, cid, ds) :: calls =>
    match s.add sid cid ds with
    | (s', none) =>
      ((runAdds s' calls).1, (runAdds s' calls).2.1 + 1, (runAdds s' calls).2.2)
    | (s', some .invalidDiff) =>
      ((runAdds s' calls).1, (runAdds s' calls).2.1, (runAdds s' calls).2.2 + 1)
    | (s', some .duplicateCommit) => runAdds s' calls

/-- Adjacent ordering of claim C1 / spec §8 invariant 1: strictly sorted
by `start` and non-overlapping. -/
def hunkOrd (a b : HunkRange) : Prop :=
  a.start < b.start ∧ a.start + a.lines ≤ b.start

instance : DecidableRel hunkOrd := fun a b =>
  inferInstanceAs (Decidable (a.start < b.start ∧ a.start + a.lines ≤ b.start))

/-- The invariant of claim C1: every adjacent pair of stored ranges is
strictly sorted and non-overlapping. -/
def sortedInv (l : List HunkRange) : Prop := List.Chain' hunkOrd l

instance : DecidablePred sortedInv := fun l =>
  inferInstanceAs (Decidable (List.Chain' hunkOrd l))

/-- Consistency of two consecutive diffs of one commit: the earlier
diff's post-image interval ends strictly before the later diff's
pre-image start, at or before its post-image start, and the post-image
starts strictly increase. -/
def diffLink (d e : InputDiff) : Prop :=
  d.new_start + d.new_lines < e.old_start ∧
  d.new_start + d.new_lines ≤ e.new_start ∧
  d.new_start < e.new_start

instance : DecidableRel diffLink := fun d e =>
  inferInstanceAs (Decidable (d.new_start + d.new_lines < e.old_start ∧
    d.new_start + d.new_lines ≤ e.new_start ∧ d.new_start < e.new_start))

/-- Consistency of an already emitted range with the next diff: the
range ends strictly before the diff's pre-image start, at or before its
post-image start, and strictly before its post-image start. -/
def rdLink (p : HunkRange) (d : InputDiff) : Prop :=
  p.start + p.lines < d.old_start ∧
  p.start + p.lines ≤ d.new_start ∧
  p.start < d.new_start

/-- Scenario S2 / claim C6, first diff: commit `a` creates a 7-line file
(`@@ -0,0 +1,7 @@`), with the claim's literal counter values. -/
def s2Diff1 : InputDiff := ⟨0, 0, 1, 7⟩

/-- Scenario S2 / claim C6, second diff: commit `b` changes line 4
(`@@ -1,7 +1,7 @@`), with the claim's literal counter values. -/
def s2Diff2 : InputDiff := ⟨1, 7, 1, 7⟩

/-- Scenario S2 / claim C6, third diff: commit `c` deletes the file
(`@@ -1,7 +0,0 @@`), with the claim's literal counter values. -/
def s2Diff3 : InputDiff := ⟨1, 7, 0, 0⟩

/-- Scenario S2 / claim C6: the state after adding commits `a`, `b`, `c`
(embedded as ids 1, 2, 3 on stack 0) to an empty `PathRanges`. -/
def s2State : PathRanges :=
  (((PathRanges.empty.add 0 1 [s2Diff1]).1.add 0 2 [s2Diff2]).1.add 0 3 [s2Diff3]).1

/-! ## Basic lemmas about the merge loop -/

theorem contWith_nil (r : Option (Except AddErr (List HunkRange))) :
    contWith [] r = r := by
  cases r with
  | none => rfl
  | some x => cases x <;> simp [contWith]

theorem contWith_isSome (pre : List HunkRange)
    (r : Option (Except AddErr (List HunkRange))) :
    (contWith pre r).isSome = r.isSome := by
  cases r with
  | none => rfl
  | some x => cases x <;> simp [contWith]

theorem contWith_eq_some_error (pre : List HunkRange)
    (r : Option (Except AddErr (List HunkRange))) (e : AddErr) :
    contWith pre r = some (.error e) ↔ r = some (.error e) := by
  cases r with
  | none => simp [contWith]
  | some x => cases x <;> simp [contWith]

/-- Fuel `|ds| + |hs|` always suffices: every iteration of the loop
consumes exactly one diff or one existing hunk. -/
theorem mergeLoop_isSome_of_le (sid cid : Nat) :
    ∀ (fuel : Nat) (ds : List InputDiff) (hs : List HunkRange) (net : Int)
      (last : Option HunkRange), ds.length + hs.length ≤ fuel →
      (mergeLoop sid cid fuel ds hs net last).isSome := by
  intro fuel
  induction fuel with
  | zero =>
    intro ds hs net last hle
    match ds, hs with
    | [], [] => simp [mergeLoop]
    | _ :: _, _ => simp at hle
    | [], _ :: _ => simp at hle
  | succ fuel ih =>
    intro ds hs net last hle
    match ds, hs with
    | [], [] => simp [mergeLoop]
    | d :: ds, [] =>
      simp only [mergeLoop]
      cases hn : d.netLines with
      | error e => simp
      | ok n =>
        cases ha : addNew d last sid cid with
        | error e => simp
        | ok rs =>
          rw [contWith_isSome]
          exact ih ds [] (net + n) rs.getLast? (by simp at hle ⊢; omega)
    | [], h :: hs =>
      simp only [mergeLoop]
      rw [contWith_isSome]
      exact ih [] hs net _ (by simp at hle ⊢; omega)
    | d :: ds, h :: hs =>
      simp only [mergeLoop]
      by_cases hlt : d.old_start < h.start
      · simp only [if_pos hlt]
        cases hn : d.netLines with
        | error e => simp
        | ok n =>
          cases ha : addNew d last sid cid with
          | error e => simp
          | ok rs =>
            rw [contWith_isSome]
            exact ih ds (h :: hs) (net + n) rs.getLast? (by simp at hle ⊢; omega)
      · simp only [if_neg hlt]
        rw [contWith_isSome]
        exact ih (d :: ds) hs net _ (by simp at hle ⊢; omega)

theorem netLines_eq_error {d : InputDiff} {e : AddErr}
    (h : d.netLines = .error e) : e = .invalidDiff := by
  simp only [InputDiff.netLines] at h
  split at h
  · exact absurd h (by simp)
  · exact ((Except.error.injEq _ _).mp h).symm

theorem addNew_eq_error {d : InputDiff} {last : Option HunkRange} {sid cid : Nat}
    {e : AddErr} (h : addNew d last sid cid = .error e) : e = .invalidDiff := by
  unfold addNew at h
  repeat' split at h
  all_goals
    first
      | (obtain rfl := ((Except.error.injEq _ _).mp h)
         exact netLines_eq_error (by assumption))
      | exact absurd h (by simp)

theorem mergeLoop_eq_error (sid cid : Nat) :
    ∀ (fuel : Nat) (ds : List InputDiff) (hs : List HunkRange) (net : Int)
      (last : Option HunkRange) (e : AddErr),
      mergeLoop sid cid fuel ds hs net last = some (.error e) → e = .invalidDiff := by
  intro fuel
  induction fuel with
  | zero =>
    intro ds hs net last e h
    match ds, hs with
    | [], [] => simp [mergeLoop] at h
    | _ :: _, _ => simp [mergeLoop] at h
    | [], _ :: _ => simp [mergeLoop] at h
  | succ fuel ih =>
    intro ds hs net last e h
    match ds, hs with
    | [], [] => simp [mergeLoop] at h
    | d :: ds, [] =>
      simp only [mergeLoop] at h
      cases hn : d.netLines with
      | error e' =>
        rw [hn] at h
        simp at h
        exact h ▸ netLines_eq_error hn
      | ok n =>
        rw [hn] at h
        cases ha : addNew d last sid cid with
        | error e' =>
          rw [ha] at h
          simp at h
          exact h ▸ addNew_eq_error ha
        | ok rs =>
          rw [ha] at h
          rw [contWith_eq_some_error] at h
          exact ih ds [] (net + n) rs.getLast? e h
    | [], h' :: hs =>
      simp only [mergeLoop] at h
      rw [contWith_eq_some_error] at h
      exact ih [] hs net _ e h
    | d :: ds, h' :: hs =>
      simp only [mergeLoop] at h
      by_cases hlt : d.old_start < h'.start
      · simp only [if_pos hlt] at h
        cases hn : d.netLines with
        | error e' =>
          rw [hn] at h
          simp at h
          exact h ▸ netLines_eq_error hn
        | ok n =>
          rw [hn] at h
          cases ha : addNew d last sid cid with
          | error e' =>
            rw [ha] at h
            simp at h
            exact h ▸ addNew_eq_error ha
          | ok rs =>
            rw [ha] at h
            rw [contWith_eq_some_error] at h
            exact ih ds (h' :: hs) (net + n) rs.getLast? e h
      · simp only [if_neg hlt] at h
        rw [contWith_eq_some_error] at h
        exact ih (d :: ds) hs net _ e h

theorem mergeRun_ne_dup (sid cid : Nat) (ds : List InputDiff) (hs : List HunkRange) :
    mergeRun sid cid ds hs ≠ .error .duplicateCommit := by
  intro h
  unfold mergeRun at h
  have hs' := mergeLoop_isSome_of_le sid cid (ds.length + hs.length) ds hs 0 none (le_refl _)
  obtain ⟨x, hx⟩ := Option.isSome_iff_exists.mp hs'
  rw [hx] at h
  simp only [Option.getD_some] at h
  rw [h] at hx
  have := mergeLoop_eq_error sid cid _ ds hs 0 none .duplicateCommit hx
  exact AddErr.noConfusion this

theorem add_snd_ne_dup {s : PathRanges} {sid cid : Nat} {ds : List InputDiff}
    (hm : cid ∉ s.commit_ids) : (s.add sid cid ds).2 ≠ some .duplicateCommit := by
  simp only [PathRanges.add, if_neg hm]
  cases hr : mergeRun sid cid ds s.hunks with
  | ok out => simp
  | error e =>
    simp only
    intro hc
    injection hc with hc
    rw [hc] at hr
    exact mergeRun_ne_dup sid cid ds s.hunks hr

theorem add_fst_commit_ids {s : PathRanges} {sid cid : Nat} {ds : List InputDiff}
    (hm : cid ∉ s.commit_ids) :
    (s.add sid cid ds).1.commit_ids = insert cid s.commit_ids := by
  simp only [PathRanges.add, if_neg hm]
  cases mergeRun sid cid ds s.hunks <;> simp

/-! ## The claims -/

/-- C9: `PathRanges.add` terminates on every input.  The two-pointer
merge loop of lines 44–62, embedded with an explicit iteration budget
(`none` models running past the budget or out of the arrays), completes
within exactly `|diffs| + |hunks|` iterations from any loop state, since
every iteration consumes exactly one diff or one stored hunk. -/
theorem c9_add_terminates (sid cid : Nat) (ds : List InputDiff)
    (hs : List HunkRange) (net : Int) (last : Option HunkRange) :
    (mergeLoop sid cid (ds.length + hs.length) ds hs net last).isSome :=
  mergeLoop_isSome_of_le sid cid _ ds hs net last (le_refl _)

/-- C2: calling `add` with an already ingested commit id fails with
`DuplicateCommit` and leaves the whole state — in particular `hunks` —
exactly as it was; an `add` with a fresh commit id never fails with
`DuplicateCommit`. -/
theorem c2_duplicate_commit (s : PathRanges) (sid cid : Nat) (ds : List InputDiff) :
    (cid ∈ s.commit_ids → s.add sid cid ds = (s, some .duplicateCommit)) ∧
    (cid ∉ s.commit_ids → (s.add sid cid ds).2 ≠ some .duplicateCommit) :=
  ⟨fun hm => by simp [PathRanges.add, hm], fun hm => add_snd_ne_dup hm⟩

/-- Witness for C2 at a concrete state: commit 5 is already present, so
re-adding it fails with `DuplicateCommit` and returns the state
untouched, while adding the fresh commit 6 does not fail with
`DuplicateCommit`. -/
theorem c2_duplicate_commit_witness :
    (PathRanges.add ⟨[], {5}⟩ 0 5 [] = (⟨[], {5}⟩, some .duplicateCommit)) ∧
    (PathRanges.add ⟨[], {5}⟩ 0 6 []).2 ≠ some .duplicateCommit :=
  ⟨(c2_duplicate_commit ⟨[], {5}⟩ 0 5 []).1 (by decide),
   (c2_duplicate_commit ⟨[], {5}⟩ 0 6 []).2 (by decide)⟩

/-- C6 (scenario S2): after adding commit `a` creating seven lines,
commit `b` changing line 4 and commit `c` deleting the file — with the
claim's literal `InputDiff` values — `intersection 1 1` returns exactly
one range, owned by commit `c` (id 3), and `hunks` has length 1. -/
theorem c6_delete_then_recreate :
    s2State.intersection 1 1 = [⟨0, 3, 0, 0, -7⟩] ∧
    s2State.hunks.length = 1 ∧
    ∀ r ∈ s2State.intersection 1 1, r.commit_id = 3 := by decide

/-- C7 (counterexample): `intersection` does not return exactly the
ranges whose closed-open interval overlaps the query.  With a single
deletion sentinel stored, `intersection 1 1` returns the sentinel even
though the closed-open interval `[0, 0)` overlaps nothing. -/
theorem c7_counterexample :
    PathRanges.intersection ⟨[⟨0, 3, 0, 0, -7⟩], ∅⟩ 1 1 = [⟨0, 3, 0, 0, -7⟩] ∧
    specOverlap ⟨0, 3, 0, 0, -7⟩ 1 1 = false := by decide

/-- C7 (amended): `intersection` returns exactly the stored ranges
satisfying `intersects` — closed-open overlap, except that deletion
sentinels always match, other zero-length ranges never match, and a
zero-length query is a point query — as a sublist of `hunks`, hence in
`hunks` order; it is a pure function of the state, so it cannot fail,
does not mutate, and identical calls give equal results. -/
theorem c7_intersection_filter (s : PathRanges) (start lines : Nat) :
    s.intersection start lines = s.hunks.filter (fun r => r.intersects start lines) ∧
    (s.intersection start lines).Sublist s.hunks ∧
    ∀ r, r ∈ s.intersection start lines ↔
      r ∈ s.hunks ∧ r.intersects start lines = true :=
  ⟨rfl, List.filter_sublist s.hunks, fun _ => List.mem_filter⟩

/-- C3 (counterexample): the split branch is *not* taken when
`p.start = d.old_start`, although the claim's containment premise
`p.start ≤ d.old_start ∧ d.old_start + d.old_lines ≤ p.start + p.lines`
holds and neither earlier branch applies: the code's `contains` is
strict in `start`, so `add_new` emits two ranges (tail-overwrite
branch), not the claimed three. -/
theorem c3_counterexample :
    ((⟨0, 1, 1, 7, 7⟩ : HunkRange).start ≤ (⟨1, 2, 1, 2⟩ : InputDiff).old_start ∧
     (⟨1, 2, 1, 2⟩ : InputDiff).old_start + (⟨1, 2, 1, 2⟩ : InputDiff).old_lines ≤
       (⟨0, 1, 1, 7, 7⟩ : HunkRange).start + (⟨0, 1, 1, 7, 7⟩ : HunkRange).lines ∧
     ¬((⟨0, 1, 1, 7, 7⟩ : HunkRange).start + (⟨0, 1, 1, 7, 7⟩ : HunkRange).lines <
        (⟨1, 2, 1, 2⟩ : InputDiff).old_start)) ∧
    addNew ⟨1, 2, 1, 2⟩ (some ⟨0, 1, 1, 7, 7⟩) 0 2 =
      .ok [⟨0, 1, 1, 0, 7⟩, ⟨0, 2, 1, 2, 0⟩] := by decide

/-- C3 (amended): with the containment premise strengthened to the
strict form the code uses (`p.start < d.old_start`), `add_new` emits
exactly the three claimed ranges: the head of `p` with `line_shift 0`,
the new range with `line_shift = d.net_lines`, and the tail of `p` at
`d.new_start + d.new_lines` with length
`p.lines − d.old_lines − (d.old_start − p.start)` and `p`'s shift. -/
theorem c3_split_branch (sid cid : Nat) (d : InputDiff) (p : HunkRange) (n : Int)
    (hn : d.netLines = .ok n) (h1 : p.start < d.old_start)
    (h2 : d.old_start + d.old_lines ≤ p.start + p.lines) :
    addNew d (some p) sid cid =
      .ok [⟨p.stack_id, p.commit_id, p.start, d.new_start - p.start, 0⟩,
           ⟨sid, cid, d.new_start, d.new_lines, n⟩,
           ⟨p.stack_id, p.commit_id, d.new_start + d.new_lines,
            p.lines - d.old_lines - (d.old_start - p.start), p.line_shift⟩] := by
  have hnd : ¬(p.start + p.lines < d.old_start) := by omega
  have hc : p.contains d.old_start d.old_lines = true := by
    simp only [HunkRange.contains, decide_eq_true_eq]
    exact ⟨h1, h2⟩
  simp only [addNew, if_neg hnd, hc, if_true, hn]

/-- Witness for C3 (amended) at a concrete split: one line of a 7-line
range at start 1 is overwritten at old line 2. -/
theorem c3_split_branch_witness :
    addNew ⟨2, 1, 2, 1⟩ (some ⟨0, 1, 1, 7, 7⟩) 5 9 =
      .ok [⟨0, 1, 1, 1, 0⟩, ⟨5, 9, 2, 1, 0⟩, ⟨0, 1, 3, 5, 7⟩] :=
  c3_split_branch 5 9 ⟨2, 1, 2, 1⟩ ⟨0, 1, 1, 7, 7⟩ 0 (by decide) (by decide) (by decide)

/-- C4 (counterexample): `add_existing` does *not* drop `h` when the
shifted `h` is entirely covered by `p`.  With `p = [1, 11)` and
`h = [3, 5)` (shift 0, not a sentinel, shifted start not past `p`'s
end, `h` strictly inside `p`), the result is not `[p]`: the code's
`covered_by` test asks whether `p` is covered by the shifted `h`, which
fails here, and the final branch emits `p` plus a truncated `h`. -/
theorem c4_counterexample :
    (((⟨0, 2, 3, 2, 0⟩ : HunkRange).start + (⟨0, 2, 3, 2, 0⟩ : HunkRange).lines ≠ 0) ∧
     ¬((⟨0, 1, 1, 10, 0⟩ : HunkRange).start + (⟨0, 1, 1, 10, 0⟩ : HunkRange).lines <
        satAddSigned (⟨0, 2, 3, 2, 0⟩ : HunkRange).start 0) ∧
     (⟨0, 1, 1, 10, 0⟩ : HunkRange).start ≤ satAddSigned (⟨0, 2, 3, 2, 0⟩ : HunkRange).start 0 ∧
     satAddSigned (⟨0, 2, 3, 2, 0⟩ : HunkRange).start 0 + (⟨0, 2, 3, 2, 0⟩ : HunkRange).lines ≤
       (⟨0, 1, 1, 10, 0⟩ : HunkRange).start + (⟨0, 1, 1, 10, 0⟩ : HunkRange).lines) ∧
    addExisting ⟨0, 2, 3, 2, 0⟩ (some ⟨0, 1, 1, 10, 0⟩) 0 ≠ [⟨0, 1, 1, 10, 0⟩] := by decide

/-- C4 (amended): `add_existing` returns only `p` (discarding `h`) when
`h` is not a sentinel, its shifted start is not strictly past `p`'s end,
and — the code's actual guard, with the roles of the spec's wording
reversed — `p`'s interval is covered by the shifted interval of `h`
(`shifted ≤ p.start` and `p.start + p.lines ≤ shifted + h.lines`). -/
theorem c4_covered_branch (h p : HunkRange) (shift : Int)
    (h0 : h.start + h.lines ≠ 0)
    (h1 : ¬(p.start + p.lines < satAddSigned h.start shift))
    (h2 : p.covered_by (satAddSigned h.start shift) h.lines = true) :
    addExisting h (some p) shift = [p] := by
  simp only [addExisting, if_neg h0, if_neg h1, h2, if_true]

/-- Witness for C4 (amended): `h = [1, 10)` shifted by 0 covers
`p = [2, 5)`, so only `p` is kept. -/
theorem c4_covered_branch_witness :
    addExisting ⟨0, 2, 1, 9, 0⟩ (some ⟨0, 1, 2, 3, 4⟩) 0 = [⟨0, 1, 2, 3, 4⟩] :=
  c4_covered_branch ⟨0, 2, 1, 9, 0⟩ ⟨0, 1, 2, 3, 4⟩ 0 (by decide) (by decide) (by decide)

/-- C5 (counterexample): when the incoming diff's `old_lines` plus
`(old_start − p.start)` exceeds `p.lines`, `add` does *not* return an
`InvalidDiff` error: the diff is handled by the `covered_by` branch of
`add_new` and the call succeeds (error channel `none`). -/
theorem c5_counterexample :
    (⟨1, 5, 1, 1⟩ : InputDiff).old_lines +
        ((⟨1, 5, 1, 1⟩ : InputDiff).old_start - (⟨0, 1, 1, 2, 2⟩ : HunkRange).start) >
      (⟨0, 1, 1, 2, 2⟩ : HunkRange).lines ∧
    (PathRanges.add ⟨[⟨0, 1, 1, 2, 2⟩], {1}⟩ 0 2 [⟨1, 5, 1, 1⟩]).2 = none := by decide

/-- C5 (amended): the underflowing tail-length subtraction of the split
branch is unreachable.  Whenever `old_lines + (old_start − p.start)`
exceeds `p.lines`, the `contains` guard of the split branch is false, so
the subtraction `p.lines − old_lines − (old_start − p.start)` is never
executed; such diffs flow to the `covered_by` or tail-overlap branch
instead, and no `InvalidDiff` error is raised for them. -/
theorem c5_no_underflow (p : HunkRange) (s l : Nat)
    (h : p.lines < l + (s - p.start)) :
    p.contains s l = false := by
  simp only [HunkRange.contains, decide_eq_false_iff_not]
  omega

/-- Witness for C5 (amended): a 5-line pre-image starting at the start
of a 2-line range is not contained in it. -/
theorem c5_no_underflow_witness :
    HunkRange.contains ⟨0, 1, 1, 2, 0⟩ 1 5 = false :=
  c5_no_underflow ⟨0, 1, 1, 2, 0⟩ 1 5 (by decide)

/-- C10: a creation/deletion sentinel (`h.start + h.lines = 0`) is
passed through alone by `add_existing`, discarding the held-back range
`p`; consequently a loop iteration of `add` that consumes such a
sentinel replaces `last_hunk` by the sentinel without emitting `p`, so
`p` is absent from the resulting hunks list. -/
theorem c10_sentinel_drops_last (h p : HunkRange) (shift : Int)
    (hsent : h.start + h.lines = 0) :
    addExisting h (some p) shift = [h] ∧
    ∀ (sid cid fuel : Nat) (ds : List InputDiff) (hs : List HunkRange) (net : Int),
      (∀ d, ds.head? = some d → ¬d.old_start < h.start) →
      mergeLoop sid cid (fuel + 1) ds (h :: hs) net (some p) =
        mergeLoop sid cid fuel ds hs net (some h) := by
  have key : ∀ sh : Int, addExisting h (some p) sh = [h] := fun sh => by
    simp only [addExisting, if_pos hsent]
  refine ⟨key shift, ?_⟩
  intro sid cid fuel ds hs net hguard
  cases ds with
  | nil =>
    simp only [mergeLoop, key net]
    rw [show ([h] : List HunkRange).dropLast = [] from rfl,
        show ([h] : List HunkRange).getLast? = some h from rfl, contWith_nil]
  | cons d ds =>
    have hng : ¬d.old_start < h.start := hguard d rfl
    simp only [mergeLoop, if_neg hng, key net]
    rw [show ([h] : List HunkRange).dropLast = [] from rfl,
        show ([h] : List HunkRange).getLast? = some h from rfl, contWith_nil]

/-- Witness for C10: the sentinel left by a file deletion replaces the
held-back range in a concrete one-step loop state. -/
theorem c10_sentinel_drops_last_witness :
    addExisting ⟨0, 3, 0, 0, -7⟩ (some ⟨0, 1, 1, 7, 7⟩) (-7) = [⟨0, 3, 0, 0, -7⟩] ∧
    mergeLoop 0 9 1 [] [⟨0, 3, 0, 0, -7⟩] 0 (some ⟨0, 1, 1, 7, 7⟩) =
      mergeLoop 0 9 0 [] [] 0 (some ⟨0, 3, 0, 0, -7⟩) := by
  have hmain := c10_sentinel_drops_last ⟨0, 3, 0, 0, -7⟩ ⟨0, 1, 1, 7, 7⟩ (-7) (by decide)
  exact ⟨hmain.1, hmain.2 0 9 0 [] [] 0 (fun d hd => by simp at hd)⟩

/-- C8 (counterexample): `commit_ids` does not count only successful
calls.  A single `add` whose diff makes `net_lines` overflow fails with
`InvalidDiff`, yet the commit id was already inserted: one id is stored
while zero calls succeeded. -/
theorem c8_counterexample :
    (runAdds PathRanges.empty [(0, 1, [⟨0, 0, 1, 2 ^ 31⟩])]).1.commit_ids.card = 1 ∧
    (runAdds PathRanges.empty [(0, 1, [⟨0, 0, 1, 2 ^ 31⟩])]).2.1 = 0 := by decide

/-- C8 (amended): `add` inserts the commit id before validating the
diffs (line 32 of `path.rs`), so after any sequence of calls the number
of stored commit ids equals the number of calls that did *not* fail
with `DuplicateCommit` — the successful calls plus the calls that
failed with `InvalidDiff`. -/
theorem c8_commit_ids_card (calls : List (Nat × Nat × List InputDiff)) :
    ∀ s : PathRanges,
      (runAdds s calls).1.commit_ids.card =
        s.commit_ids.card + (runAdds s calls).2.1 + (runAdds s calls).2.2 := by
  induction calls with
  | nil => intro s; simp [runAdds]
  | cons c calls ih =>
    obtain ⟨sid, cid, ds⟩ := c
    intro s
    by_cases hm : cid ∈ s.commit_ids
    · have hadd : s.add sid cid ds = (s, some .duplicateCommit) := by
        simp [PathRanges.add, hm]
      simp only [runAdds, hadd]
      exact ih s
    · have hcard : (s.add sid cid ds).1.commit_ids.card = s.commit_ids.card + 1 := by
        rw [add_fst_commit_ids hm, Finset.card_insert_of_not_mem hm]
      cases hadd : s.add sid cid ds with
      | mk s' e =>
        have hcard' : s'.commit_ids.card = s.commit_ids.card + 1 := by
          rw [hadd] at hcard; exact hcard
        cases e with
        | none =>
          simp only [runAdds, hadd]
          have h1 := ih s'
          omega
        | some e' =>
          cases e' with
          | invalidDiff =>
            simp only [runAdds, hadd]
            have h1 := ih s'
            omega
          | duplicateCommit =>
            exact absurd (by rw [hadd] : (s.add sid cid ds).2 = some .duplicateCommit)
              (add_snd_ne_dup hm)

/-- C1 (counterexample): the sorted/non-overlap invariant does not
survive every sequence of successful `add` calls with per-commit diffs
sorted by `old_start` and mutually non-overlapping.  Two successful
adds, each with a single diff (trivially sorted and non-overlapping),
where the second diff's post-image position is inconsistent with its
pre-image position, leave `hunks = [[1,10), [1,2)]` — neither strictly
sorted nor non-overlapping. -/
theorem c1_counterexample :
    (PathRanges.empty.add 0 1 [⟨0, 0, 1, 9⟩]).2 = none ∧
    ((PathRanges.empty.add 0 1 [⟨0, 0, 1, 9⟩]).1.add 0 2 [⟨100, 1, 1, 1⟩]).2 = none ∧
    ¬sortedInv (((PathRanges.empty.add 0 1 [⟨0, 0, 1, 9⟩]).1.add 0 2
        [⟨100, 1, 1, 1⟩]).1.hunks) := by
  refine ⟨by decide, by decide, ?_⟩
  intro hsort
  rw [show ((PathRanges.empty.add 0 1 [⟨0, 0, 1, 9⟩]).1.add 0 2
        [⟨100, 1, 1, 1⟩]).1.hunks = [⟨0, 1, 1, 9, 9⟩, ⟨0, 2, 1, 1, 0⟩] from by decide]
    at hsort
  simp only [sortedInv, List.chain'_cons, List.chain'_singleton, and_true] at hsort
  exact absurd hsort (by simp [hunkOrd])

/-- Auxiliary for C1: if every remaining diff is consistently placed
behind the held-back range `p` (post-image intervals strictly
increasing, pre-image start past `p`'s end), the merge emits `p`
followed by the new ranges, sorted and non-overlapping. -/
theorem mergeLoop_new_sorted (sid cid : Nat) :
    ∀ (fuel : Nat) (ds : List InputDiff) (p : HunkRange) (net : Int),
      ds.length ≤ fuel →
      (∀ d ∈ ds, d.netOk = true) →
      (∀ d, ds.head? = some d → rdLink p d) →
      ds.Chain' diffLink →
      ∃ l, mergeLoop sid cid fuel ds [] net (some p) = some (.ok (p :: l)) ∧
        sortedInv (p :: l) := by
  intro fuel
  induction fuel with
  | zero =>
    intro ds p net hle _ _ _
    match ds with
    | [] =>
      exact ⟨[], by simp [mergeLoop], List.chain'_singleton p⟩
    | _ :: _ => simp at hle
  | succ fuel ih =>
    intro ds p net hle hok hlink hchain
    match ds with
    | [] =>
      exact ⟨[], by simp [mergeLoop], List.chain'_singleton p⟩
    | d :: ds =>
      obtain ⟨n, hn⟩ : ∃ n, d.netLines = .ok n := by
        have hd := hok d (by simp)
        unfold InputDiff.netOk at hd
        cases hnl : d.netLines with
        | ok n => exact ⟨n, rfl⟩
        | error e => rw [hnl] at hd; simp at hd
      have hpd : rdLink p d := hlink d rfl
      have haddnew : addNew d (some p) sid cid =
          .ok [p, ⟨sid, cid, d.new_start, d.new_lines, n⟩] := by
        simp only [addNew, if_pos hpd.1, hn]
      obtain ⟨hhead, htail⟩ := List.chain'_cons'.mp hchain
      obtain ⟨l, hl, hsort⟩ := ih ds ⟨sid, cid, d.new_start, d.new_lines, n⟩ (net + n)
        (by simp only [List.length_cons] at hle; omega)
        (fun d' hd' => hok d' (List.mem_cons_of_mem _ hd'))
        (fun d' hd' => hhead d' (by simp [hd']))
        htail
      refine ⟨⟨sid, cid, d.new_start, d.new_lines, n⟩ :: l, ?_, ?_⟩
      · simp only [mergeLoop, hn, haddnew]
        rw [show ([p, ⟨sid, cid, d.new_start, d.new_lines, n⟩] :
              List HunkRange).dropLast = [p] from rfl,
            show ([p, ⟨sid, cid, d.new_start, d.new_lines, n⟩] :
              List HunkRange).getLast? = some ⟨sid, cid, d.new_start, d.new_lines, n⟩
              from rfl,
            hl]
        simp [contWith]
      · exact List.chain'_cons.mpr ⟨⟨hpd.2.2, hpd.2.1⟩, hsort⟩

/-- C1 (amended): the invariant holds for a single successful `add` on
an empty `PathRanges` when, in addition to the claim's hypotheses, each
diff's post-image placement is consistent with its pre-image order
(`new_start + new_lines` strictly before the next diff's `old_start`,
at or before the next diff's `new_start`, and `new_start` strictly
increasing): the call succeeds and the resulting `hunks` are strictly
sorted by `start` with `r[k].start + r[k].lines ≤ r[k+1].start`.
Without the added consistency hypothesis the invariant fails
(`c1_counterexample`). -/
theorem c1_single_add_sorted (sid cid : Nat) (ds : List InputDiff)
    (hok : ∀ d ∈ ds, d.netOk = true) (hchain : ds.Chain' diffLink) :
    sortedInv ((PathRanges.empty.add sid cid ds).1.hunks) ∧
    (PathRanges.empty.add sid cid ds).2 = none := by
  cases ds with
  | nil =>
    constructor <;>
      simp [PathRanges.add, PathRanges.empty, mergeRun, mergeLoop, sortedInv]
  | cons d ds =>
    obtain ⟨n, hn⟩ : ∃ n, d.netLines = .ok n := by
      have hd := hok d (by simp)
      unfold InputDiff.netOk at hd
      cases hnl : d.netLines with
      | ok n => exact ⟨n, rfl⟩
      | error e => rw [hnl] at hd; simp at hd
    have haddnew : addNew d none sid cid =
        .ok [⟨sid, cid, d.new_start, d.new_lines, n⟩] := by
      simp only [addNew, hn]
    obtain ⟨hhead, htail⟩ := List.chain'_cons'.mp hchain
    obtain ⟨l, hl, hsort⟩ := mergeLoop_new_sorted sid cid ds.length ds
      ⟨sid, cid, d.new_start, d.new_lines, n⟩ (0 + n) (le_refl _)
      (fun d' hd' => hok d' (List.mem_cons_of_mem _ hd'))
      (fun d' hd' => hhead d' (by simp [hd']))
      htail
    have hrun : mergeRun sid cid (d :: ds) [] =
        .ok (⟨sid, cid, d.new_start, d.new_lines, n⟩ :: l) := by
      unfold mergeRun
      rw [show (d :: ds).length + ([] : List HunkRange).length = ds.length + 1 by simp]
      simp only [mergeLoop, hn, haddnew]
      rw [show ([⟨sid, cid, d.new_start, d.new_lines, n⟩] :
            List HunkRange).dropLast = [] from rfl,
          show ([⟨sid, cid, d.new_start, d.new_lines, n⟩] :
            List HunkRange).getLast? = some ⟨sid, cid, d.new_start, d.new_lines, n⟩
            from rfl,
          hl]
      simp [contWith]
    have hnm : cid ∉ PathRanges.empty.commit_ids := by
      simp [PathRanges.empty]
    have hrun' : mergeRun sid cid (d :: ds) PathRanges.empty.hunks =
        .ok (⟨sid, cid, d.new_start, d.new_lines, n⟩ :: l) := hrun
    constructor
    · simp only [PathRanges.add, if_neg hnm, hrun']
      exact hsort
    · simp only [PathRanges.add, if_neg hnm, hrun']

/-- Witness for C1 (amended): two consistently placed diffs of one
commit produce sorted, non-overlapping hunks and a successful call. -/
theorem c1_single_add_sorted_witness :
    sortedInv ((PathRanges.empty.add 0 7 [⟨1, 1, 1, 2⟩, ⟨5, 1, 4, 1⟩]).1.hunks) ∧
    (PathRanges.empty.add 0 7 [⟨1, 1, 1, 2⟩, ⟨5, 1, 4, 1⟩]).2 = none :=
  c1_single_add_sorted 0 7 [⟨1, 1, 1, 2⟩, ⟨5, 1, 4, 1⟩] (by decide)
    (List.chain'_cons.mpr
      ⟨by decide, List.chain'_singleton _⟩)

end GitButler
